import Mathlib

/-!
Verification development for the HA-flip trading engine
(`core/heiken_ashi.py`, `core/signal_engine.py`, `core/coin_selector.py`,
`trading/risk_manager.py`, `trading/slot_manager.py`, `trading/order_executor.py`).

Shallow embedding conventions:
* Python `Decimal` prices, quantities and balances are modelled as `ℚ`
  (all arithmetic appearing in the embedded code is exact at the modelled
  precision).
* `datetime` fields, logging, the database CRUD calls and exchange ids are
  not part of the modelled state; exchange RPC results are passed in as
  explicit oracle arguments (return codes, per-attempt outcomes).
* Each engine keeps per-symbol state in a dict; the embedding models the
  per-symbol slice of that state, since no operation under study couples
  distinct symbols.
-/

/-! ## Data model (`exchange/models.py`) -/

inductive Side where
  | LONG
  | SHORT
  deriving DecidableEq

inductive TradeStatus where
  | PENDING
  | FILLING
  | OPEN
  | CLOSING
  | CLOSED
  | CANCELLED
  deriving DecidableEq

inductive SlotState where
  | AVAILABLE
  | ASSIGNED
  | IN_TRADE
  | COOLDOWN
  | FROZEN
  deriving DecidableEq

/-- Standard OHLCV candle (`Candle` in `exchange/models.py`).
`open` is a Lean keyword, hence the field name `open_`. -/
structure Candle where
  timestamp : Nat
  open_ : ℚ
  high : ℚ
  low : ℚ
  close : ℚ
  volume : ℚ
  confirmed : Bool
  deriving DecidableEq

/-- Heiken Ashi candle (`HACandle` in `exchange/models.py`). -/
structure HACandle where
  timestamp : Nat
  ha_open : ℚ
  ha_close : ℚ
  ha_high : ℚ
  ha_low : ℚ
  deriving DecidableEq

def HACandle.is_bullish (h : HACandle) : Bool := decide (h.ha_open < h.ha_close)

def HACandle.is_bearish (h : HACandle) : Bool := decide (h.ha_close < h.ha_open)

/-- Trading signal (`Signal` in `exchange/models.py`); the `symbol` and
wall-clock `timestamp` fields are outside the per-symbol embedding. -/
structure Signal where
  side : Side
  ha_candle : HACandle
  deriving DecidableEq

/-- Single take-profit level (`TPLevel`); `hit_time` is a `datetime` and is
not modelled. -/
structure TPLevel where
  level : Nat
  price : ℚ
  hit : Bool
  deriving DecidableEq

/-- The slice of `Trade` read and written by the risk manager. -/
structure Trade where
  side : Side
  status : TradeStatus
  tp_levels : List TPLevel
  highest_tp_reached : Nat
  current_sl_price : Option ℚ
  initial_sl_price : Option ℚ
  deriving DecidableEq

/-- Trading slot (`Slot` in `exchange/models.py`); `updated_at` is not
modelled. -/
structure Slot where
  id : Nat
  balance : ℚ
  state : SlotState
  current_symbol : Option String
  current_trade_id : Option Nat
  total_trades : Nat
  total_pnl : ℚ
  deriving DecidableEq

/-! ## HA engine (`core/heiken_ashi.py`) -/

/-- `HeikenAshiEngine._calc_single`. -/
def calc_single (candle : Candle) (prev_ha : Option HACandle) : HACandle :=
  let ha_close := (candle.open_ + candle.high + candle.low + candle.close) / 4
  let ha_open :=
    match prev_ha with
    | none => (candle.open_ + candle.close) / 2
    | some p => (p.ha_open + p.ha_close) / 2
  { timestamp := candle.timestamp
    ha_open := ha_open
    ha_close := ha_close
    ha_high := max candle.high (max ha_open ha_close)
    ha_low := min candle.low (min ha_open ha_close) }

/-- `HeikenAshiEngine._detect_flip`. -/
def detect_flip (prev_ha curr_ha : HACandle) : Option Signal :=
  if prev_ha.is_bearish && curr_ha.is_bullish then
    some { side := Side.LONG, ha_candle := curr_ha }
  else if prev_ha.is_bullish && curr_ha.is_bearish then
    some { side := Side.SHORT, ha_candle := curr_ha }
  else
    none

/-- Per-symbol slice of `HeikenAshiEngine` state: the entry of
`_ha_series` and the entry of `_prev_ha` for one symbol. -/
structure HAState where
  series : List HACandle
  prev : Option HACandle
  deriving DecidableEq

def HAState.empty : HAState := { series := [], prev := none }

/-- The chained HA computation inside `build_from_history`'s loop. -/
def build_aux (prev : Option HACandle) : List Candle → List HACandle
  | [] => []
  | c :: cs =>
    let ha := calc_single c prev
    ha :: build_aux (some ha) cs

/-- `HeikenAshiEngine.build_from_history` (per-symbol state effect; the
function also returns the series, which equals the stored one). -/
def build_from_history (st : HAState) (candles : List Candle) : HAState :=
  if candles.isEmpty then st
  else
    let ha_series := build_aux none candles
    { series := ha_series, prev := ha_series.getLast? }

/-- `HeikenAshiEngine.update`: append the confirmed candle's HA (keeping
the last 50), detect a flip against the previous HA, advance `_prev_ha`. -/
def HAState.update (st : HAState) (candle : Candle) : HAState × HACandle × Option Signal :=
  let prev_ha := st.prev
  let new_ha := calc_single candle prev_ha
  let appended := st.series ++ [new_ha]
  let trimmed := if appended.length > 50 then appended.drop (appended.length - 50) else appended
  let signal :=
    match prev_ha with
    | none => none
    | some p => detect_flip p new_ha
  ({ series := trimmed, prev := some new_ha }, new_ha, signal)

/-- Modelled from the spec: `calc_live(symbol, live_4h_candle)` is invoked
by `SignalEngine.on_kline_5` but has no definition in
`HeikenAshiEngine` (`src/core/heiken_ashi.py`); per the spec it computes an
HA candle read-only, chaining from the stored previous-confirmed HA, and
detects a flip against that previous HA, without mutating any stored
state. -/
def calc_live (st : HAState) (live : Candle) : HACandle × Option Signal :=
  let live_ha := calc_single live st.prev
  let signal :=
    match st.prev with
    | none => none
    | some p => detect_flip p live_ha
  (live_ha, signal)

/-! ## Signal engine (`core/signal_engine.py`), per-symbol slice

The handlers below are the per-symbol state transitions of
`SignalEngine.on_kline_240` / `on_kline_5`: the per-symbol entries of
`_flip_acted_this_window` (the window-start marker) and `_live_4h_candle`
(the cached live 4h candle), plus the HA engine state the handlers drive. -/

structure SEState where
  ha : HAState
  flip_acted : Option Nat
  live_4h : Option Candle
  deriving DecidableEq

/-- `SignalEngine.on_kline_240` for one kline of the symbol: on a confirmed
candle, feed the HA engine, clear the flip marker and drop the live cache;
otherwise cache the live candle. -/
def on_kline_240 (st : SEState) (c : Candle) : SEState :=
  if c.confirmed then
    { st with ha := (st.ha.update c).fst, flip_acted := none, live_4h := none }
  else
    { st with live_4h := some c }

/-- `SignalEngine.on_kline_5` for one confirmed 5m kline of the symbol:
read the cached live 4h candle, run `calc_live`, and act on the signal
only if no flip was acted for this cached window start yet. Returns the
acted window start (`candle_start` passed on to `_process_signal`), if
any. -/
def on_kline_5 (st : SEState) : SEState × Option Nat :=
  match st.live_4h with
  | none => (st, none)
  | some live_4h =>
    let signal := (calc_live st.ha live_4h).snd
    match signal with
    | none => (st, none)
    | some _ =>
      let candle_start := live_4h.timestamp
      if st.flip_acted = some candle_start then (st, none)
      else ({ st with flip_acted := some candle_start }, some candle_start)

/-- Events of one symbol's stream reaching the two handlers above: a 4h
kline (live or confirmed, per `Candle.confirmed`) or a confirmed 5m close
(the 5m OHLCV values are never read by the handler, so they are not
carried). -/
inductive SEEvent where
  | k240 (c : Candle)
  | k5
  deriving DecidableEq

def se_step (st : SEState) (e : SEEvent) : SEState × Option Nat :=
  match e with
  | SEEvent.k240 c => (on_kline_240 st c, none)
  | SEEvent.k5 => on_kline_5 st

/-- Process a list of events, collecting the window starts of acted flip
signals in order. -/
def se_run (st : SEState) : List SEEvent → SEState × List Nat
  | [] => (st, [])
  | e :: es =>
    let step := se_step st e
    let rest := se_run step.fst es
    (rest.fst,
      match step.snd with
      | some w => w :: rest.snd
      | none => rest.snd)

/-- Lower bound on the window start of the next admissible 4h event, given
the bound before the current event: live events keep the reached start,
confirmed events close their window for good. -/
def next_lb (lb : Nat) : SEEvent → Nat
  | SEEvent.k240 c => if c.confirmed then c.timestamp + 1 else c.timestamp
  | SEEvent.k5 => lb

/-- Well-ordered 4h stream for one symbol: window starts of 4h events are
non-decreasing, and once a window is confirmed no later 4h event reuses
its start. (5m closes carry no constraint.) -/
def ValidTrace : Nat → List SEEvent → Prop
  | _, [] => True
  | lb, SEEvent.k240 c :: es => lb ≤ c.timestamp ∧ ValidTrace (next_lb lb (SEEvent.k240 c)) es
  | lb, SEEvent.k5 :: es => ValidTrace lb es

/-! ## Risk manager (`trading/risk_manager.py`) -/

/-- `RiskManager._get_tp_price`. -/
def get_tp_price (trade : Trade) (level : Nat) : Option ℚ :=
  (trade.tp_levels.find? (fun tp => tp.level == level)).map (fun tp => tp.price)

/-- The hit test applied to each unhit TP level in
`RiskManager._check_tp_levels`. -/
def newly_hit (side : Side) (price : ℚ) (tp : TPLevel) : Bool :=
  !tp.hit &&
    (decide (side = Side.LONG ∧ tp.price ≤ price) ||
     decide (side = Side.SHORT ∧ price ≤ tp.price))

/-- `RiskManager._update_sl`. `ret_code` is the `retCode` of the
`set_trading_stop` RPC that would be issued; the second component is the
SL value pushed to the exchange (`none` when the update is refused by the
monotonicity guard and no RPC happens). -/
def update_sl (trade : Trade) (new_sl_price : ℚ) (ret_code : Int) : Trade × Option ℚ :=
  match trade.current_sl_price with
  | some current_sl =>
    if trade.side = Side.LONG ∧ new_sl_price ≤ current_sl then (trade, none)
    else if trade.side = Side.SHORT ∧ current_sl ≤ new_sl_price then (trade, none)
    else if ret_code = 0 then
      ({ trade with current_sl_price := some new_sl_price }, some new_sl_price)
    else (trade, some new_sl_price)
  | none =>
    if ret_code = 0 then
      ({ trade with current_sl_price := some new_sl_price }, some new_sl_price)
    else (trade, some new_sl_price)

/-- The `new_highest` accumulation of `RiskManager._check_tp_levels`'s
loop. -/
def new_highest_tp (trade : Trade) (price : ℚ) : Nat :=
  trade.tp_levels.foldl
    (fun acc tp => if newly_hit trade.side price tp then max acc tp.level else acc)
    trade.highest_tp_reached

/-- The `tp.hit = True` mutations of `RiskManager._check_tp_levels`'s
loop. -/
def mark_hits (trade : Trade) (price : ℚ) : List TPLevel :=
  trade.tp_levels.map
    (fun tp => if newly_hit trade.side price tp then { tp with hit := true } else tp)

/-- `RiskManager._check_tp_levels`. Returns the updated trade, the SL
value handed to `_update_sl` (if the trailing branch ran) and the SL value
actually pushed to the exchange by `_update_sl` (if not refused). -/
def check_tp_levels (trade : Trade) (price : ℚ) (ret_code : Int) :
    Trade × Option ℚ × Option ℚ :=
  let nh := new_highest_tp trade price
  let marked := { trade with tp_levels := mark_hits trade price }
  if nh > trade.highest_tp_reached then
    let raised := { marked with highest_tp_reached := nh }
    if nh ≥ 2 then
      match get_tp_price raised (nh - 1) with
      | some new_sl =>
        ((update_sl raised new_sl ret_code).fst, some new_sl,
          (update_sl raised new_sl ret_code).snd)
      | none => (raised, none, none)
    else (raised, none, none)
  else (marked, none, none)

/-- `RiskManager.check_price` restricted to one active trade of the ticked
symbol (the per-trade guard of the loop body). -/
def check_price_trade (trade : Trade) (mark_price : ℚ) (ret_code : Int) :
    Trade × Option ℚ × Option ℚ :=
  if trade.status = TradeStatus.OPEN ∧ trade.tp_levels ≠ [] then
    check_tp_levels trade mark_price ret_code
  else (trade, none, none)

/-- A sequence of `_update_sl` calls (new SL value and the exchange
`retCode` each would see), as performed over a trade's lifetime. -/
def apply_sl_updates (trade : Trade) : List (ℚ × Int) → Trade
  | [] => trade
  | u :: us => apply_sl_updates (update_sl trade u.fst u.snd).fst us

/-! ## Slot manager (`trading/slot_manager.py`) -/

structure SlotConfig where
  num_slots : Nat
  initial_balance : ℚ
  min_balance : ℚ
  leverage : Nat
  deriving DecidableEq

/-- `SlotManager.complete_trade`; `pnl` and `fees` are the trade's
`trade.pnl or 0` and `trade.fees or 0`, and the cooldown timestamp is not
modelled (it does not affect the state machine). -/
def complete_trade (cfg : SlotConfig) (slot : Slot) (pnl fees : ℚ) : Slot :=
  let net_pnl := pnl - fees
  let new_balance := slot.balance + net_pnl
  { slot with
    balance := new_balance
    total_trades := slot.total_trades + 1
    total_pnl := slot.total_pnl + net_pnl
    current_symbol := none
    current_trade_id := none
    state :=
      if new_balance < cfg.min_balance then SlotState.FROZEN else SlotState.COOLDOWN }

/-- Stable insertion step for `sorted(self._slots.values(), key=lambda s: s.id)`. -/
def insert_by_id (a : Slot) : List Slot → List Slot
  | [] => [a]
  | b :: bs => if a.id ≤ b.id then a :: b :: bs else b :: insert_by_id a bs

def sort_by_id (slots : List Slot) : List Slot := slots.foldr insert_by_id []

/-- `SlotManager.get_available_slot`: first slot in id order whose state is
AVAILABLE. -/
def get_available_slot (slots : List Slot) : Option Slot :=
  (sort_by_id slots).find? (fun s => s.state == SlotState.AVAILABLE)

/-- `SlotManager.release_from_cooldown`. -/
def release_from_cooldown (slot : Slot) : Slot :=
  if slot.state = SlotState.COOLDOWN then { slot with state := SlotState.AVAILABLE }
  else slot

/-! ## Order executor (`trading/order_executor.py`) -/

structure ExecConfig where
  max_fill_retries : Nat
  post_only_retries : Nat
  deriving DecidableEq

inductive TIF where
  | PostOnly
  | GTC
  deriving DecidableEq

/-- Outcome of one iteration of `execute_entry`'s attempt loop, as decided
by the exchange: orderbook read failed, computed qty below minimum, order
rejected with a PostOnly-would-cross code (170213/170217), other non-zero
`retCode`, accepted but `orderId` missing, filled within the timeout, or
not filled (cancel and escalate). -/
inductive AttemptOutcome where
  | noOrderbook
  | invalidQty
  | postOnlyReject
  | orderError
  | noOrderId
  | filled
  | notFilled
  deriving DecidableEq

/-- One `place_order` call as recorded for analysis. -/
structure Placement where
  attempt : Nat
  tier : Nat
  tif : TIF
  outcome : AttemptOutcome
  deriving DecidableEq

def tier_of (post_only_retries attempt : Nat) : Nat :=
  if attempt ≤ post_only_retries then attempt else 3

def tif_of (post_only_retries attempt : Nat) : TIF :=
  if attempt ≤ post_only_retries then TIF.PostOnly else TIF.GTC

/-- The `for attempt in range(1, max_fill_retries + 1)` loop of
`OrderExecutor.execute_entry`, driven by the per-attempt exchange outcome
oracle. The fuel counts the remaining loop iterations. Returns whether the
entry filled, and the order placements that occurred (no placement happens
when the orderbook read fails; an invalid qty aborts the whole entry). -/
def entry_loop (cfg : ExecConfig) (oracle : Nat → AttemptOutcome) :
    Nat → Nat → Bool × List Placement
  | 0, _ => (false, [])
  | fuel + 1, attempt =>
    let tif := tif_of cfg.post_only_retries attempt
    let tier := tier_of cfg.post_only_retries attempt
    match oracle attempt with
    | AttemptOutcome.noOrderbook => entry_loop cfg oracle fuel (attempt + 1)
    | AttemptOutcome.invalidQty => (false, [])
    | AttemptOutcome.postOnlyReject =>
      let rest := entry_loop cfg oracle fuel (attempt + 1)
      (rest.fst, { attempt := attempt, tier := tier, tif := tif, outcome := AttemptOutcome.postOnlyReject } :: rest.snd)
    | AttemptOutcome.orderError =>
      let rest := entry_loop cfg oracle fuel (attempt + 1)
      (rest.fst, { attempt := attempt, tier := tier, tif := tif, outcome := AttemptOutcome.orderError } :: rest.snd)
    | AttemptOutcome.noOrderId =>
      let rest := entry_loop cfg oracle fuel (attempt + 1)
      (rest.fst, { attempt := attempt, tier := tier, tif := tif, outcome := AttemptOutcome.noOrderId } :: rest.snd)
    | AttemptOutcome.filled =>
      (true, [{ attempt := attempt, tier := tier, tif := tif, outcome := AttemptOutcome.filled }])
    | AttemptOutcome.notFilled =>
      let rest := entry_loop cfg oracle fuel (attempt + 1)
      (rest.fst, { attempt := attempt, tier := tier, tif := tif, outcome := AttemptOutcome.notFilled } :: rest.snd)

/-- `OrderExecutor.execute_entry` (fill/attempt protocol). -/
def execute_entry (cfg : ExecConfig) (oracle : Nat → AttemptOutcome) : Bool × List Placement :=
  entry_loop cfg oracle cfg.max_fill_retries 1

/-! ## Coin selector (`core/coin_selector.py`) -/

/-- Tracked coin metadata (`CoinInfo` in `exchange/models.py`);
`cooldown_until` is a `datetime` and is not modelled. -/
structure CoinInfo where
  symbol : String
  base_coin : String
  volume_24h : ℚ
  min_qty : ℚ
  qty_step : ℚ
  tick_size : ℚ
  last_ha : Option HACandle
  prev_ha : Option HACandle
  in_active_trade : Bool
  deriving DecidableEq

/-- The fields of a `/v5/market/tickers` entry the selector reads. -/
structure Ticker where
  symbol : String
  turnover24h : ℚ
  deriving DecidableEq

/-- The fields of an instruments-info entry the selector reads. -/
structure Instrument where
  symbol : String
  min_order_qty : ℚ
  qty_step : ℚ
  tick_size : ℚ
  deriving DecidableEq

structure CoinCand where
  symbol : String
  base : String
  volume : ℚ
  inst : Instrument
  deriving DecidableEq

/-- Python `symbol.endswith("USDT")`, phrased over the character list so
that it evaluates. -/
def ends_with (s t : String) : Bool := t.data.isSuffixOf s.data

/-- Replacement loop for Python `str.replace` (all non-overlapping
occurrences, left to right); the fuel is the length of the subject and
bounds the recursion. -/
def replace_loop (p r : List Char) : Nat → List Char → List Char
  | 0, s => s
  | fuel + 1, s =>
    match s with
    | [] => []
    | c :: rest =>
      if p.isPrefixOf s then r ++ replace_loop p r fuel (s.drop p.length)
      else c :: replace_loop p r fuel rest

/-- Python `s.replace(p, r)` for a non-empty pattern `p` (the selector
always passes `"USDT"`), phrased over character lists so that it
evaluates. -/
def replace_all (s p r : String) : String :=
  { data := replace_loop p.data r.data s.data.length s.data }

/-- Stable insertion step for
`candidates.sort(key=lambda x: x[2], reverse=True)`. -/
def insert_by_vol_desc (a : CoinCand) : List CoinCand → List CoinCand
  | [] => [a]
  | b :: bs => if b.volume ≤ a.volume then a :: b :: bs else b :: insert_by_vol_desc a bs

def sort_by_vol_desc (l : List CoinCand) : List CoinCand := l.foldr insert_by_vol_desc []

/-- `CoinSelector.refresh` (instrument symbols assumed unique, so the dict
lookup is the first match): filter tickers to USDT pairs outside the
exclusion list that have instrument info, sort by 24h turnover descending,
take the top `num_coins`, preserving cached HA / in-trade state of coins
already tracked. Returns the new coin list and the `(added, removed)`
symbol diff. -/
def coin_refresh (num_coins : Nat) (excluded : List String) (coins : List CoinInfo)
    (tickers : List Ticker) (instruments : List Instrument) :
    List CoinInfo × List String × List String :=
  let old_symbols := coins.map (fun c => c.symbol)
  let candidates := tickers.filterMap (fun tk =>
    if !ends_with tk.symbol "USDT" then none
    else
      let base := replace_all tk.symbol "USDT" ""
      if excluded.contains base || excluded.contains tk.symbol then none
      else
        match instruments.find? (fun inst => inst.symbol == tk.symbol) with
        | none => none
        | some inst => some { symbol := tk.symbol, base := base, volume := tk.turnover24h, inst := inst })
  let top := (sort_by_vol_desc candidates).take num_coins
  let new_coins := top.map (fun cand =>
    let coin : CoinInfo :=
      { symbol := cand.symbol
        base_coin := cand.base
        volume_24h := cand.volume
        min_qty := cand.inst.min_order_qty
        qty_step := cand.inst.qty_step
        tick_size := cand.inst.tick_size
        last_ha := none
        prev_ha := none
        in_active_trade := false }
    match coins.find? (fun old => old.symbol == cand.symbol) with
    | some old =>
      { coin with
        last_ha := old.last_ha
        prev_ha := old.prev_ha
        in_active_trade := old.in_active_trade }
    | none => coin)
  let new_symbols := new_coins.map (fun c => c.symbol)
  let added := new_symbols.filter (fun s => !old_symbols.contains s)
  let removed := old_symbols.filter (fun s => !new_symbols.contains s)
  (new_coins, added, removed)

/-- `CoinSelector.is_in_trade` (on the coin list as stored after a refresh). -/
def is_in_trade (coins : List CoinInfo) (symbol : String) : Bool :=
  match coins.find? (fun c => c.symbol == symbol) with
  | some c => c.in_active_trade
  | none => false

/-- The unsubscribe filter of `Bot._coin_refresh_loop`: removed symbols
that are not flagged in-trade in the refreshed coin list get unsubscribed
and their HA/ATR state dropped. -/
def safe_to_remove (coins_after : List CoinInfo) (removed : List String) : List String :=
  removed.filter (fun s => !is_in_trade coins_after s)

/-! ## Lemmas on the HA chain -/

theorem build_aux_length (prev : Option HACandle) (cs : List Candle) :
    (build_aux prev cs).length = cs.length := by
  induction cs generalizing prev with
  | nil => rfl
  | cons c0 cs ih => simp [build_aux, ih]

theorem build_from_history_series (st : HAState) (cs : List Candle) (h : cs ≠ []) :
    build_from_history st cs =
      { series := build_aux none cs, prev := (build_aux none cs).getLast? } := by
  simp [build_from_history, h]

theorem build_aux_pointwise (prev : Option HACandle) (cs : List Candle) (i : Nat)
    (c : Candle) (ha : HACandle)
    (hc : cs.get? i = some c) (hha : (build_aux prev cs).get? i = some ha) :
    ha.timestamp = c.timestamp ∧
    ha.ha_close = (c.open_ + c.high + c.low + c.close) / 4 ∧
    ha.ha_high = max c.high (max ha.ha_open ha.ha_close) ∧
    ha.ha_low = min c.low (min ha.ha_open ha.ha_close) := by
  induction cs generalizing prev i with
  | nil => simp at hc
  | cons c0 cs ih =>
    cases i with
    | zero =>
      simp [build_aux] at hc hha
      subst hc
      subst hha
      exact ⟨rfl, rfl, rfl, rfl⟩
    | succ i =>
      exact ih (some (calc_single c0 prev)) i (by simpa using hc) (by simpa [build_aux] using hha)

theorem build_aux_chain (prev : Option HACandle) (cs : List Candle) (i : Nat)
    (ha ha' : HACandle)
    (h1 : (build_aux prev cs).get? i = some ha)
    (h2 : (build_aux prev cs).get? (i + 1) = some ha') :
    ha'.ha_open = (ha.ha_open + ha.ha_close) / 2 := by
  induction cs generalizing prev i with
  | nil => simp [build_aux] at h1
  | cons c0 cs ih =>
    cases i with
    | zero =>
      simp [build_aux] at h1
      cases cs with
      | nil => simp [build_aux] at h2
      | cons c1 cs' =>
        simp [build_aux] at h2
        subst h1
        subst h2
        rfl
    | succ i =>
      exact ih (some (calc_single c0 prev)) i (by simpa [build_aux] using h1)
        (by simpa [build_aux] using h2)

theorem build_aux_seed (cs : List Candle) (c : Candle) (ha : HACandle)
    (hc : cs.get? 0 = some c) (hha : (build_aux none cs).get? 0 = some ha) :
    ha.ha_open = (c.open_ + c.close) / 2 := by
  cases cs with
  | nil => simp at hc
  | cons c0 cs =>
    simp [build_aux] at hc hha
    subst hc
    subst hha
    rfl

def last_or (l : List HACandle) (d : Option HACandle) : Option HACandle :=
  match l.getLast? with
  | some x => some x
  | none => d

theorem last_or_nil (d : Option HACandle) : last_or [] d = d := rfl

theorem last_or_none (l : List HACandle) : last_or l none = l.getLast? := by
  cases h : l.getLast? <;> simp [last_or, h]

theorem last_or_cons (a : HACandle) (l : List HACandle) (d : Option HACandle) :
    last_or (a :: l) d = last_or l (some a) := by
  cases l with
  | nil => simp [last_or]
  | cons b bs =>
    show (match (a :: b :: bs).getLast? with | some x => some x | none => d) = _
    rw [List.getLast?_cons_cons]
    rfl

theorem build_aux_append_one (prev : Option HACandle) (cs : List Candle) (c : Candle) :
    build_aux prev (cs ++ [c]) =
      build_aux prev cs ++ [calc_single c (last_or (build_aux prev cs) prev)] := by
  induction cs generalizing prev with
  | nil => simp [build_aux, last_or]
  | cons c0 cs ih =>
    rw [show (c0 :: cs) ++ [c] = c0 :: (cs ++ [c]) from rfl]
    show calc_single c0 prev :: build_aux (some (calc_single c0 prev)) (cs ++ [c]) = _
    rw [ih (some (calc_single c0 prev))]
    rw [show build_aux prev (c0 :: cs) = calc_single c0 prev ::
      build_aux (some (calc_single c0 prev)) cs from rfl]
    rw [last_or_cons]
    simp

/-- C7: every HA candle produced by `build_from_history` and `update`
satisfies the canonical formulas: `ha_close = (O+H+L+C)/4`;
`ha_open = (prev.ha_open + prev.ha_close)/2` with the first candle seeded
as `(O+C)/2`; `ha_high = max(H, ha_open, ha_close)`;
`ha_low = min(L, ha_open, ha_close)`. -/
theorem C7_ha_formulas :
    (∀ (st : HAState) (candles : List Candle) (i : Nat) (c : Candle) (ha : HACandle),
        candles.get? i = some c →
        (build_from_history st candles).series.get? i = some ha →
        ha.ha_close = (c.open_ + c.high + c.low + c.close) / 4 ∧
        ha.ha_high = max c.high (max ha.ha_open ha.ha_close) ∧
        ha.ha_low = min c.low (min ha.ha_open ha.ha_close) ∧
        (i = 0 → ha.ha_open = (c.open_ + c.close) / 2)) ∧
    (∀ (st : HAState) (candles : List Candle) (i : Nat) (ha ha' : HACandle),
        candles ≠ [] →
        (build_from_history st candles).series.get? i = some ha →
        (build_from_history st candles).series.get? (i + 1) = some ha' →
        ha'.ha_open = (ha.ha_open + ha.ha_close) / 2) ∧
    (∀ (st : HAState) (c : Candle),
        ((st.update c).snd.fst.ha_close = (c.open_ + c.high + c.low + c.close) / 4) ∧
        ((st.update c).snd.fst.ha_high =
          max c.high (max (st.update c).snd.fst.ha_open (st.update c).snd.fst.ha_close)) ∧
        ((st.update c).snd.fst.ha_low =
          min c.low (min (st.update c).snd.fst.ha_open (st.update c).snd.fst.ha_close)) ∧
        ((st.update c).snd.fst.ha_open =
          match st.prev with
          | none => (c.open_ + c.close) / 2
          | some p => (p.ha_open + p.ha_close) / 2)) := by
  refine ⟨?_, ?_, ?_⟩
  · intro st candles i c ha hc hha
    have hne : candles ≠ [] := by
      intro h
      subst h
      simp at hc
    rw [build_from_history_series st candles hne] at hha
    obtain ⟨-, h2, h3, h4⟩ := build_aux_pointwise none candles i c ha hc hha
    refine ⟨h2, h3, h4, ?_⟩
    intro hi
    subst hi
    exact build_aux_seed candles c ha hc hha
  · intro st candles i ha ha' hne h1 h2
    rw [build_from_history_series st candles hne] at h1 h2
    exact build_aux_chain none candles i ha ha' h1 h2
  · intro st c
    cases hp : st.prev <;> simp [HAState.update, calc_single, hp]

def c7_candle_a : Candle :=
  { timestamp := 0, open_ := 2, high := 4, low := 0, close := 2, volume := 1, confirmed := true }

def c7_candle_b : Candle :=
  { timestamp := 1, open_ := 1, high := 5, low := 1, close := 3, volume := 1, confirmed := true }

/-- Witness for C7: the formulas evaluated on a concrete two-candle
history. -/
theorem C7_ha_formulas_witness :
    ([c7_candle_a, c7_candle_b].get? 1 = some c7_candle_b) ∧
    ((build_from_history HAState.empty [c7_candle_a, c7_candle_b]).series.get? 1 =
      some { timestamp := 1, ha_open := 2, ha_close := 5 / 2, ha_high := 5, ha_low := 1 }) ∧
    ((5 : ℚ) / 2 = (c7_candle_b.open_ + c7_candle_b.high + c7_candle_b.low + c7_candle_b.close) / 4) ∧
    (({ timestamp := 1, ha_open := 2, ha_close := 5 / 2, ha_high := 5, ha_low := 1 } : HACandle).ha_open =
      (({ timestamp := 0, ha_open := 2, ha_close := 2, ha_high := 4, ha_low := 0 } : HACandle).ha_open +
        ({ timestamp := 0, ha_open := 2, ha_close := 2, ha_high := 4, ha_low := 0 } : HACandle).ha_close) / 2) := by
  have h1 : ([c7_candle_a, c7_candle_b].get? 1 = some c7_candle_b) := rfl
  have h2 : ((build_from_history HAState.empty [c7_candle_a, c7_candle_b]).series.get? 1 =
      some { timestamp := 1, ha_open := 2, ha_close := 5 / 2, ha_high := 5, ha_low := 1 }) := by
    norm_num [build_from_history, build_aux, calc_single, HAState.empty,
      c7_candle_a, c7_candle_b, max_def, min_def]
  have h0 : ((build_from_history HAState.empty [c7_candle_a, c7_candle_b]).series.get? 0 =
      some { timestamp := 0, ha_open := 2, ha_close := 2, ha_high := 4, ha_low := 0 }) := by
    norm_num [build_from_history, build_aux, calc_single, HAState.empty,
      c7_candle_a, c7_candle_b, max_def, min_def]
  refine ⟨h1, h2, ?_, ?_⟩
  · have := (C7_ha_formulas.1 HAState.empty [c7_candle_a, c7_candle_b] 1 c7_candle_b
      { timestamp := 1, ha_open := 2, ha_close := 5 / 2, ha_high := 5, ha_low := 1 } h1 h2).1
    exact this
  · exact C7_ha_formulas.2.1 HAState.empty [c7_candle_a, c7_candle_b] 0
      { timestamp := 0, ha_open := 2, ha_close := 2, ha_high := 4, ha_low := 0 }
      { timestamp := 1, ha_open := 2, ha_close := 5 / 2, ha_high := 5, ha_low := 1 }
      (by simp) h0 h2

theorem update_series_length (st : HAState) (c : Candle) :
    ((st.update c).fst).series.length = min (st.series.length + 1) 50 := by
  simp only [HAState.update]
  by_cases hlen : (st.series ++ [calc_single c st.prev]).length > 50
  · rw [if_pos hlen]
    rw [List.length_drop]
    rw [List.length_append] at hlen ⊢
    simp at hlen ⊢
    omega
  · rw [if_neg hlen]
    rw [List.length_append] at hlen ⊢
    simp at hlen ⊢
    omega

/-- Counterexample for C8 as stated: with a 50-candle history,
`build_from_history` then `update` trims the stored series to the last 50
HA candles, while a single `build_from_history` over the 51 candles stores
all 51, so the final per-symbol states differ. -/
theorem C8_round_trip_cex :
    ¬ (((build_from_history HAState.empty
          (List.replicate 50 c7_candle_a)).update c7_candle_a).fst =
        build_from_history HAState.empty
          (List.replicate 50 c7_candle_a ++ [c7_candle_a])) := by
  intro h
  have hS : (build_aux none (List.replicate 50 c7_candle_a)).length = 50 := by
    rw [build_aux_length]
    simp
  have h1 : (((build_from_history HAState.empty
      (List.replicate 50 c7_candle_a)).update c7_candle_a).fst).series.length = 50 := by
    rw [build_from_history_series _ _ (by simp), update_series_length]
    dsimp only
    rw [hS]
    omega
  have h2 : (build_from_history HAState.empty
      (List.replicate 50 c7_candle_a ++ [c7_candle_a])).series.length = 51 := by
    rw [build_from_history_series _ _ (by simp)]
    dsimp only
    rw [build_aux_length]
    simp
  rw [h] at h1
  rw [h2] at h1
  exact absurd h1 (by norm_num)

/-- C8 amended: for a non-empty history, `build_from_history` followed by
`update` with the next confirmed candle yields the same previous-HA
pointer as a single `build_from_history` over the combined history, and
the same full per-symbol state whenever the original history has fewer
than 50 candles (`update` trims the stored series to the last 50,
`build_from_history` does not trim). -/
theorem update_no_trim (st : HAState) (c : Candle) (h : st.series.length < 50) :
    (st.update c).fst =
      { series := st.series ++ [calc_single c st.prev],
        prev := some (calc_single c st.prev) } := by
  have hcond : ¬ ((st.series ++ [calc_single c st.prev]).length > 50) := by
    rw [List.length_append]
    simp only [List.length_singleton]
    omega
  simp only [HAState.update]
  rw [if_neg hcond]

theorem C8_round_trip :
    ∀ (st : HAState) (cs : List Candle) (c : Candle), cs ≠ [] →
      ((build_from_history st cs).update c).fst.prev =
        (build_from_history st (cs ++ [c])).prev ∧
      (cs.length < 50 →
        ((build_from_history st cs).update c).fst =
          build_from_history st (cs ++ [c])) := by
  intro st cs c hne
  have hne' : cs ++ [c] ≠ [] := by simp
  rw [build_from_history_series st cs hne, build_from_history_series st (cs ++ [c]) hne']
  rw [build_aux_append_one none cs c, last_or_none]
  constructor
  · simp [HAState.update, List.getLast?_concat]
  · intro hlt
    have hlenS : (build_aux none cs).length < 50 := by
      rw [build_aux_length]
      exact hlt
    rw [update_no_trim _ c hlenS]
    simp [List.getLast?_concat]

/-- Witness for C8 amended: a concrete two-candle history round-trips to
the identical state. -/
theorem C8_round_trip_witness :
    ([c7_candle_a] : List Candle) ≠ [] ∧
    ((build_from_history HAState.empty [c7_candle_a]).update c7_candle_b).fst =
      build_from_history HAState.empty [c7_candle_a, c7_candle_b] := by
  have h : ([c7_candle_a] : List Candle) ≠ [] := by simp
  have hlen : ([c7_candle_a] : List Candle).length < 50 := by simp
  refine ⟨h, ?_⟩
  have := (C8_round_trip HAState.empty [c7_candle_a] c7_candle_b h).2 hlen
  simpa using this

/-! ## Slot manager results (`trading/slot_manager.py`) -/

def c6_cfg : SlotConfig :=
  { num_slots := 8, initial_balance := 10, min_balance := 5, leverage := 8 }

def c6_slot : Slot :=
  { id := 1, balance := 10, state := SlotState.IN_TRADE, current_symbol := some "XUSDT",
    current_trade_id := some 7, total_trades := 0, total_pnl := 0 }

/-- Counterexample for C6 as stated: `complete_trade` adds the net P&L to
the balance without clamping, so a loss larger than the balance leaves the
slot with a negative balance. -/
theorem C6_balance_cex : ¬ (0 ≤ (complete_trade c6_cfg c6_slot (-20) 0).balance) := by
  norm_num [complete_trade, c6_cfg, c6_slot]

/-- C6 amended: `complete_trade` sets the balance to
`old + (pnl - fees)`, which is non-negative exactly when the net loss does
not exceed the old balance (it is not clamped at zero); a slot whose new
balance falls below `min_balance` transitions to FROZEN, is never returned
by `get_available_slot`, and is not released by `release_from_cooldown`. -/
theorem C6_slot_freeze :
    ∀ (cfg : SlotConfig) (s : Slot) (pnl fees : ℚ),
      (complete_trade cfg s pnl fees).balance = s.balance + (pnl - fees) ∧
      (-s.balance ≤ pnl - fees → 0 ≤ (complete_trade cfg s pnl fees).balance) ∧
      ((complete_trade cfg s pnl fees).balance < cfg.min_balance →
        (complete_trade cfg s pnl fees).state = SlotState.FROZEN) ∧
      (cfg.min_balance ≤ (complete_trade cfg s pnl fees).balance →
        (complete_trade cfg s pnl fees).state = SlotState.COOLDOWN) ∧
      (∀ (slots : List Slot) (sel : Slot),
        get_available_slot slots = some sel → sel.state = SlotState.AVAILABLE) ∧
      (∀ u : Slot, u.state = SlotState.FROZEN → release_from_cooldown u = u) := by
  intro cfg s pnl fees
  refine ⟨rfl, ?_, ?_, ?_, ?_, ?_⟩
  · intro h
    have hb : (complete_trade cfg s pnl fees).balance = s.balance + (pnl - fees) := rfl
    rw [hb]
    linarith
  · intro h
    have hb : s.balance + (pnl - fees) < cfg.min_balance := h
    simp only [complete_trade]
    rw [if_pos hb]
  · intro h
    have hb : ¬ (s.balance + (pnl - fees) < cfg.min_balance) := not_lt.mpr h
    simp only [complete_trade]
    rw [if_neg hb]
  · intro slots sel h
    have hp := List.find?_some h
    simpa using hp
  · intro u hu
    simp only [release_from_cooldown, hu]
    rfl

def c6_slot2 : Slot :=
  { id := 2, balance := 6, state := SlotState.IN_TRADE, current_symbol := some "YUSDT",
    current_trade_id := some 9, total_trades := 3, total_pnl := 0 }

/-- Witness for C6 amended: the spec's freeze scenario (balance 6, net −2
trade, `min_balance` 5) freezes the slot and keeps it frozen. -/
theorem C6_slot_freeze_witness :
    (complete_trade c6_cfg c6_slot2 (-2) 0).balance = 6 + ((-2) - 0) ∧
    (complete_trade c6_cfg c6_slot2 (-2) 0).state = SlotState.FROZEN ∧
    release_from_cooldown (complete_trade c6_cfg c6_slot2 (-2) 0) =
      complete_trade c6_cfg c6_slot2 (-2) 0 := by
  have h := C6_slot_freeze c6_cfg c6_slot2 (-2) 0
  have hbal : (complete_trade c6_cfg c6_slot2 (-2) 0).balance = 6 + ((-2) - 0) := by
    rw [h.1]
    rfl
  have hfrozen : (complete_trade c6_cfg c6_slot2 (-2) 0).state = SlotState.FROZEN := by
    refine h.2.2.1 ?_
    rw [hbal]
    norm_num [c6_cfg]
  exact ⟨hbal, hfrozen, h.2.2.2.2.2 _ hfrozen⟩

/-! ## Order executor results (`trading/order_executor.py`) -/

def c5_cfg : ExecConfig := { max_fill_retries := 3, post_only_retries := 2 }

/-- Counterexample for C5 as stated: with every placement rejected by a
PostOnly-would-cross code, the second placement happens at attempt 2 /
tier 2, not at the same tier with the same attempt counter — the retry
consumes one of the bounded attempts. -/
theorem C5_postonly_cex :
    ¬ (∀ (p q : Placement),
        (execute_entry c5_cfg (fun _ => AttemptOutcome.postOnlyReject)).snd.get? 0 = some p →
        (execute_entry c5_cfg (fun _ => AttemptOutcome.postOnlyReject)).snd.get? 1 = some q →
        p.outcome = AttemptOutcome.postOnlyReject →
        q.tier = p.tier ∧ q.attempt = p.attempt) := by
  intro hclaim
  have h := hclaim
    { attempt := 1, tier := 1, tif := TIF.PostOnly, outcome := AttemptOutcome.postOnlyReject }
    { attempt := 2, tier := 2, tif := TIF.PostOnly, outcome := AttemptOutcome.postOnlyReject }
    rfl rfl rfl
  exact absurd h.2 (by decide)

theorem entry_loop_mem_facts (cfg : ExecConfig) (oracle : Nat → AttemptOutcome) :
    ∀ (fuel a : Nat) (p : Placement), p ∈ (entry_loop cfg oracle fuel a).snd →
      a ≤ p.attempt ∧ p.attempt < a + fuel ∧
      p.tier = tier_of cfg.post_only_retries p.attempt ∧
      p.tif = tif_of cfg.post_only_retries p.attempt := by
  intro fuel
  induction fuel with
  | zero =>
    intro a p hp
    simp [entry_loop] at hp
  | succ fuel ih =>
    intro a p hp
    simp only [entry_loop] at hp
    cases h : oracle a <;> rw [h] at hp <;> dsimp only at hp
    case noOrderbook =>
      obtain ⟨h1, h2, h3, h4⟩ := ih (a + 1) p hp
      exact ⟨by omega, by omega, h3, h4⟩
    case invalidQty => exact absurd hp (List.not_mem_nil p)
    case postOnlyReject =>
      rcases List.mem_cons.mp hp with hp | hp
      · subst hp
        exact ⟨le_refl a, by show a < a + (fuel + 1); omega, rfl, rfl⟩
      · obtain ⟨h1, h2, h3, h4⟩ := ih (a + 1) p hp
        exact ⟨by omega, by omega, h3, h4⟩
    case orderError =>
      rcases List.mem_cons.mp hp with hp | hp
      · subst hp
        exact ⟨le_refl a, by show a < a + (fuel + 1); omega, rfl, rfl⟩
      · obtain ⟨h1, h2, h3, h4⟩ := ih (a + 1) p hp
        exact ⟨by omega, by omega, h3, h4⟩
    case noOrderId =>
      rcases List.mem_cons.mp hp with hp | hp
      · subst hp
        exact ⟨le_refl a, by show a < a + (fuel + 1); omega, rfl, rfl⟩
      · obtain ⟨h1, h2, h3, h4⟩ := ih (a + 1) p hp
        exact ⟨by omega, by omega, h3, h4⟩
    case filled =>
      rcases List.mem_cons.mp hp with hp | hp
      · subst hp
        exact ⟨le_refl a, by show a < a + (fuel + 1); omega, rfl, rfl⟩
      · exact absurd hp (List.not_mem_nil p)
    case notFilled =>
      rcases List.mem_cons.mp hp with hp | hp
      · subst hp
        exact ⟨le_refl a, by show a < a + (fuel + 1); omega, rfl, rfl⟩
      · obtain ⟨h1, h2, h3, h4⟩ := ih (a + 1) p hp
        exact ⟨by omega, by omega, h3, h4⟩

theorem entry_loop_length (cfg : ExecConfig) (oracle : Nat → AttemptOutcome) :
    ∀ (fuel a : Nat), (entry_loop cfg oracle fuel a).snd.length ≤ fuel := by
  intro fuel
  induction fuel with
  | zero =>
    intro a
    exact Nat.le_refl 0
  | succ fuel ih =>
    intro a
    simp only [entry_loop]
    cases h : oracle a <;> dsimp only
    case noOrderbook => exact le_trans (ih (a + 1)) (Nat.le_succ fuel)
    case invalidQty => simp
    case postOnlyReject =>
      rw [List.length_cons]
      exact Nat.succ_le_succ (ih (a + 1))
    case orderError =>
      rw [List.length_cons]
      exact Nat.succ_le_succ (ih (a + 1))
    case noOrderId =>
      rw [List.length_cons]
      exact Nat.succ_le_succ (ih (a + 1))
    case filled => simp
    case notFilled =>
      rw [List.length_cons]
      exact Nat.succ_le_succ (ih (a + 1))

theorem entry_loop_pairwise (cfg : ExecConfig) (oracle : Nat → AttemptOutcome) :
    ∀ (fuel a : Nat),
      List.Pairwise (fun p q : Placement => p.attempt < q.attempt)
        (entry_loop cfg oracle fuel a).snd := by
  intro fuel
  induction fuel with
  | zero =>
    intro a
    simp [entry_loop]
  | succ fuel ih =>
    intro a
    simp only [entry_loop]
    cases h : oracle a <;> dsimp only
    case noOrderbook => exact ih (a + 1)
    case invalidQty => exact List.Pairwise.nil
    case postOnlyReject =>
      exact List.Pairwise.cons
        (fun q hq => by
          have := (entry_loop_mem_facts cfg oracle fuel (a + 1) q hq).1
          show a < q.attempt
          omega)
        (ih (a + 1))
    case orderError =>
      exact List.Pairwise.cons
        (fun q hq => by
          have := (entry_loop_mem_facts cfg oracle fuel (a + 1) q hq).1
          show a < q.attempt
          omega)
        (ih (a + 1))
    case noOrderId =>
      exact List.Pairwise.cons
        (fun q hq => by
          have := (entry_loop_mem_facts cfg oracle fuel (a + 1) q hq).1
          show a < q.attempt
          omega)
        (ih (a + 1))
    case filled =>
      exact List.Pairwise.cons (fun q hq => absurd hq (List.not_mem_nil q)) List.Pairwise.nil
    case notFilled =>
      exact List.Pairwise.cons
        (fun q hq => by
          have := (entry_loop_mem_facts cfg oracle fuel (a + 1) q hq).1
          show a < q.attempt
          omega)
        (ih (a + 1))

/-- C5 amended: a PostOnly reject is retried after the ~1s delay, but the
retry consumes one of the bounded attempts: successive placements carry
strictly increasing attempt numbers in `1..max_fill_retries` (so the
re-attempt happens at the next tier index, `attempt` clamped to 3 — not
the same tier), and the total number of placements never exceeds
`max_fill_retries`. -/
theorem C5_postonly_retry :
    ∀ (cfg : ExecConfig) (oracle : Nat → AttemptOutcome),
      (execute_entry cfg oracle).snd.length ≤ cfg.max_fill_retries ∧
      List.Pairwise (fun p q : Placement => p.attempt < q.attempt)
        (execute_entry cfg oracle).snd ∧
      (∀ p ∈ (execute_entry cfg oracle).snd,
        1 ≤ p.attempt ∧ p.attempt ≤ cfg.max_fill_retries ∧
        p.tier = tier_of cfg.post_only_retries p.attempt ∧
        p.tif = tif_of cfg.post_only_retries p.attempt) := by
  intro cfg oracle
  refine ⟨entry_loop_length cfg oracle cfg.max_fill_retries 1,
    entry_loop_pairwise cfg oracle cfg.max_fill_retries 1, ?_⟩
  intro p hp
  obtain ⟨h1, h2, h3, h4⟩ := entry_loop_mem_facts cfg oracle cfg.max_fill_retries 1 p hp
  exact ⟨h1, by omega, h3, h4⟩

/-- Witness for C5 amended: the all-rejected run consumes exactly the
three bounded attempts, and its second placement sits at tier 2. -/
theorem C5_postonly_retry_witness :
    (execute_entry c5_cfg (fun _ => AttemptOutcome.postOnlyReject)).snd.length ≤ 3 ∧
    ({ attempt := 2, tier := 2, tif := TIF.PostOnly, outcome := AttemptOutcome.postOnlyReject } : Placement).tier =
      tier_of 2 2 := by
  have h := C5_postonly_retry c5_cfg (fun _ => AttemptOutcome.postOnlyReject)
  refine ⟨h.1, ?_⟩
  exact (h.2.2 { attempt := 2, tier := 2, tif := TIF.PostOnly, outcome := AttemptOutcome.postOnlyReject }
    (by decide)).2.2.1

/-! ## SL update lemmas (`RiskManager._update_sl`) -/

theorem update_sl_side (t : Trade) (v : ℚ) (ret : Int) :
    (update_sl t v ret).fst.side = t.side := by
  cases hc : t.current_sl_price <;> simp only [update_sl, hc] <;> split_ifs <;> rfl

theorem update_sl_long_step (t : Trade) (v : ℚ) (ret : Int) (c : ℚ)
    (hside : t.side = Side.LONG) (hc : t.current_sl_price = some c) :
    ∃ c', (update_sl t v ret).fst.current_sl_price = some c' ∧ c ≤ c' := by
  simp only [update_sl, hc]
  split_ifs with h1 h2 h3
  · exact ⟨c, hc, le_refl c⟩
  · exact ⟨c, hc, le_refl c⟩
  · refine ⟨v, rfl, ?_⟩
    have hv : ¬ v ≤ c := fun hv => h1 ⟨hside, hv⟩
    exact le_of_lt (not_le.mp hv)
  · exact ⟨c, hc, le_refl c⟩

theorem update_sl_short_step (t : Trade) (v : ℚ) (ret : Int) (c : ℚ)
    (hside : t.side = Side.SHORT) (hc : t.current_sl_price = some c) :
    ∃ c', (update_sl t v ret).fst.current_sl_price = some c' ∧ c' ≤ c := by
  simp only [update_sl, hc]
  split_ifs with h1 h2 h3
  · exact ⟨c, hc, le_refl c⟩
  · exact ⟨c, hc, le_refl c⟩
  · refine ⟨v, rfl, ?_⟩
    have hv : ¬ c ≤ v := fun hv => h2 ⟨hside, hv⟩
    exact le_of_lt (not_le.mp hv)
  · exact ⟨c, hc, le_refl c⟩

theorem apply_sl_updates_long (us : List (ℚ × Int)) :
    ∀ (t : Trade) (c : ℚ), t.side = Side.LONG → t.current_sl_price = some c →
      ∃ c', (apply_sl_updates t us).current_sl_price = some c' ∧ c ≤ c' := by
  induction us with
  | nil => exact fun t c _ hc => ⟨c, hc, le_refl c⟩
  | cons u us ih =>
    intro t c hs hc
    obtain ⟨c1, hc1, hle1⟩ := update_sl_long_step t u.fst u.snd c hs hc
    have hs' : (update_sl t u.fst u.snd).fst.side = Side.LONG := by
      rw [update_sl_side]
      exact hs
    obtain ⟨c', hc', hle2⟩ := ih (update_sl t u.fst u.snd).fst c1 hs' hc1
    exact ⟨c', hc', le_trans hle1 hle2⟩

theorem apply_sl_updates_short (us : List (ℚ × Int)) :
    ∀ (t : Trade) (c : ℚ), t.side = Side.SHORT → t.current_sl_price = some c →
      ∃ c', (apply_sl_updates t us).current_sl_price = some c' ∧ c' ≤ c := by
  induction us with
  | nil => exact fun t c _ hc => ⟨c, hc, le_refl c⟩
  | cons u us ih =>
    intro t c hs hc
    obtain ⟨c1, hc1, hle1⟩ := update_sl_short_step t u.fst u.snd c hs hc
    have hs' : (update_sl t u.fst u.snd).fst.side = Side.SHORT := by
      rw [update_sl_side]
      exact hs
    obtain ⟨c', hc', hle2⟩ := ih (update_sl t u.fst u.snd).fst c1 hs' hc1
    exact ⟨c', hc', le_trans hle2 hle1⟩

/-- C2: an SL update that is not strictly favorable versus the current SL
is refused by `_update_sl` — no RPC is made and the trade is unchanged —
and consequently successive `current_sl_price` values are non-decreasing
for LONG trades and non-increasing for SHORT trades once armed. -/
theorem C2_sl_monotonicity :
    (∀ (t : Trade) (v : ℚ) (ret : Int) (c : ℚ),
        t.status = TradeStatus.OPEN →
        t.current_sl_price = some c →
        ((t.side = Side.LONG ∧ v ≤ c) ∨ (t.side = Side.SHORT ∧ c ≤ v)) →
        update_sl t v ret = (t, none)) ∧
    (∀ (t : Trade) (us : List (ℚ × Int)) (c : ℚ),
        t.status = TradeStatus.OPEN →
        t.side = Side.LONG → t.current_sl_price = some c →
        ∃ c', (apply_sl_updates t us).current_sl_price = some c' ∧ c ≤ c') ∧
    (∀ (t : Trade) (us : List (ℚ × Int)) (c : ℚ),
        t.status = TradeStatus.OPEN →
        t.side = Side.SHORT → t.current_sl_price = some c →
        ∃ c', (apply_sl_updates t us).current_sl_price = some c' ∧ c' ≤ c) := by
  refine ⟨?_, ?_, ?_⟩
  · intro t v ret c _ hc hreg
    simp only [update_sl, hc]
    rcases hreg with ⟨hl, hv⟩ | ⟨hs, hv⟩
    · rw [if_pos ⟨hl, hv⟩]
    · have h1 : ¬ (t.side = Side.LONG ∧ v ≤ c) := by
        rintro ⟨hl, -⟩
        rw [hs] at hl
        cases hl
      rw [if_neg h1, if_pos ⟨hs, hv⟩]
  · exact fun t us c _ => apply_sl_updates_long us t c
  · exact fun t us c _ => apply_sl_updates_short us t c

def c2_trade : Trade :=
  { side := Side.LONG
    status := TradeStatus.OPEN
    tp_levels := []
    highest_tp_reached := 0
    current_sl_price := some 10
    initial_sl_price := some 10 }

/-- Witness for C2: a concrete refused regression and a concrete
monotone update sequence. -/
theorem C2_sl_monotonicity_witness :
    update_sl c2_trade 9 0 = (c2_trade, none) ∧
    (∃ c', (apply_sl_updates c2_trade [(12, 0), (11, 0)]).current_sl_price = some c' ∧
      (10 : ℚ) ≤ c') := by
  constructor
  · exact C2_sl_monotonicity.1 c2_trade 9 0 10 rfl rfl (Or.inl ⟨rfl, by norm_num⟩)
  · exact C2_sl_monotonicity.2.1 c2_trade [(12, 0), (11, 0)] 10 rfl rfl rfl

/-- C10: `_update_sl` is atomic with respect to exchange errors — a
non-zero `retCode` from `set_trading_stop` leaves the trade (hence
`current_sl_price`) unchanged, and `current_sl_price` is assigned only on
`retCode = 0`, to exactly the pushed value. -/
theorem C10_sl_update_atomic :
    ∀ (t : Trade) (v : ℚ) (ret : Int),
      t.status = TradeStatus.OPEN →
      (ret ≠ 0 → (update_sl t v ret).fst = t) ∧
      ((update_sl t v ret).fst.current_sl_price ≠ t.current_sl_price →
        ret = 0 ∧ (update_sl t v ret).fst.current_sl_price = some v) := by
  intro t v ret _
  cases hc : t.current_sl_price with
  | none =>
    simp only [update_sl, hc]
    split_ifs with hret
    · exact ⟨fun h => absurd hret h, fun _ => ⟨hret, rfl⟩⟩
    · exact ⟨fun _ => rfl, fun h => absurd hc h⟩
  | some c =>
    simp only [update_sl, hc]
    split_ifs with h1 h2 h3
    · exact ⟨fun _ => rfl, fun h => absurd hc h⟩
    · exact ⟨fun _ => rfl, fun h => absurd hc h⟩
    · exact ⟨fun h => absurd h3 h, fun _ => ⟨h3, rfl⟩⟩
    · exact ⟨fun _ => rfl, fun h => absurd hc h⟩

/-! ## TP-ladder lemmas (`RiskManager._check_tp_levels`) -/

theorem update_sl_highest (t : Trade) (v : ℚ) (ret : Int) :
    (update_sl t v ret).fst.highest_tp_reached = t.highest_tp_reached := by
  cases hc : t.current_sl_price <;> simp only [update_sl, hc] <;> split_ifs <;> rfl

theorem update_sl_snd (t : Trade) (v : ℚ) (ret : Int) :
    (update_sl t v ret).snd = none ∨ (update_sl t v ret).snd = some v := by
  cases hc : t.current_sl_price <;> simp only [update_sl, hc] <;> split_ifs <;> simp

theorem foldl_hit_ge (side : Side) (price : ℚ) (l : List TPLevel) (acc : Nat) :
    acc ≤ l.foldl (fun a tp => if newly_hit side price tp then max a tp.level else a) acc := by
  induction l generalizing acc with
  | nil => exact le_refl acc
  | cons tp l ih =>
    simp only [List.foldl_cons]
    refine le_trans ?_ (ih (if newly_hit side price tp then max acc tp.level else acc))
    split_ifs
    · exact le_max_left acc tp.level
    · exact le_refl acc

theorem foldl_hit_le (side : Side) (price : ℚ) (n : Nat) (l : List TPLevel) (acc : Nat)
    (hacc : acc ≤ n) (hl : ∀ tp ∈ l, tp.level ≤ n) :
    l.foldl (fun a tp => if newly_hit side price tp then max a tp.level else a) acc ≤ n := by
  induction l generalizing acc with
  | nil => exact hacc
  | cons tp l ih =>
    simp only [List.foldl_cons]
    refine ih _ ?_ (fun tp' h => hl tp' (List.mem_cons_of_mem _ h))
    split_ifs
    · exact max_le hacc (hl tp (List.mem_cons_self _ _))
    · exact hacc

theorem find?_level_mem (l : List TPLevel) (k : Nat)
    (h : k ∈ l.map TPLevel.level) :
    ∃ tp, l.find? (fun tp => tp.level == k) = some tp ∧ tp.level = k := by
  induction l with
  | nil => simp at h
  | cons tp l ih =>
    by_cases hk : tp.level = k
    · exact ⟨tp, List.find?_cons_of_pos _ (by simp [hk]), hk⟩
    · have h' : k ∈ l.map TPLevel.level := by
        rcases (by simpa using h : k = tp.level ∨ k ∈ l.map TPLevel.level) with h | h
        · exact absurd h.symm hk
        · exact h
      obtain ⟨tp', htp', hl'⟩ := ih h'
      exact ⟨tp', by rw [List.find?_cons_of_neg _ (by simp [hk])]; exact htp', hl'⟩

theorem find?_price_mark (l : List TPLevel) (f : TPLevel → Bool) (k : Nat) :
    ((l.map (fun tp => if f tp then { tp with hit := true } else tp)).find?
        (fun tp => tp.level == k)).map (fun tp => tp.price) =
      (l.find? (fun tp => tp.level == k)).map (fun tp => tp.price) := by
  induction l with
  | nil => rfl
  | cons tp l ih =>
    have hlevel : (if f tp then { tp with hit := true } else tp).level = tp.level := by
      split_ifs <;> rfl
    have hprice : (if f tp then { tp with hit := true } else tp).price = tp.price := by
      split_ifs <;> rfl
    simp only [List.map_cons, List.find?]
    rw [hlevel]
    cases hk : (tp.level == k) with
    | true => simp [hprice]
    | false => simpa using ih

theorem get_tp_price_mark (t : Trade) (price : ℚ) (nh k : Nat) :
    get_tp_price { t with tp_levels := mark_hits t price, highest_tp_reached := nh } k =
      get_tp_price t k := by
  simp only [get_tp_price, mark_hits]
  exact find?_price_mark t.tp_levels (newly_hit t.side price) k

/-- C3: on a mark-price tick on an OPEN trade with TP levels `1..n`,
`highest_tp_reached` never decreases; while it remains ≤ 1 no trailing SL
update is attempted and `current_sl_price` is untouched; and when it is
raised to some `m ≥ 2` the SL value handed to `_update_sl` (hence any
value pushed to the exchange) is exactly the price of TP level `m - 1`. -/
theorem C3_trailing_ladder :
    ∀ (t : Trade) (price : ℚ) (ret : Int) (n : Nat),
      t.status = TradeStatus.OPEN →
      t.tp_levels.map TPLevel.level = (List.range n).map (fun k => k + 1) →
      t.highest_tp_reached ≤ n →
      t.highest_tp_reached ≤ (check_price_trade t price ret).fst.highest_tp_reached ∧
      ((check_price_trade t price ret).fst.highest_tp_reached ≤ 1 →
        (check_price_trade t price ret).snd.fst = none ∧
        (check_price_trade t price ret).fst.current_sl_price = t.current_sl_price) ∧
      (2 ≤ (check_price_trade t price ret).fst.highest_tp_reached →
        t.highest_tp_reached < (check_price_trade t price ret).fst.highest_tp_reached →
        ∃ p, get_tp_price t ((check_price_trade t price ret).fst.highest_tp_reached - 1) = some p ∧
          (check_price_trade t price ret).snd.fst = some p) ∧
      (∀ v, (check_price_trade t price ret).snd.snd = some v →
        (check_price_trade t price ret).snd.fst = some v) := by
  intro t price ret n hstatus hwf hhi
  by_cases hempty : t.tp_levels = []
  · have hguard : ¬ (t.status = TradeStatus.OPEN ∧ t.tp_levels ≠ []) := by
      rintro ⟨-, hne⟩
      exact hne hempty
    have heq : check_price_trade t price ret = (t, none, none) := by
      simp only [check_price_trade, if_neg hguard]
    rw [heq]
    exact ⟨le_refl _, fun _ => ⟨rfl, rfl⟩, fun _ hlt => absurd hlt (lt_irrefl _),
      fun v hv => Option.noConfusion hv⟩
  · have hguard : t.status = TradeStatus.OPEN ∧ t.tp_levels ≠ [] := ⟨hstatus, hempty⟩
    have hcpt : check_price_trade t price ret = check_tp_levels t price ret := by
      simp only [check_price_trade, if_pos hguard]
    rw [hcpt]
    have hlevels : ∀ tp ∈ t.tp_levels, tp.level ≤ n := by
      intro tp htp
      have hmem : tp.level ∈ t.tp_levels.map TPLevel.level := List.mem_map_of_mem _ htp
      rw [hwf] at hmem
      obtain ⟨a, ha, hae⟩ := by simpa [List.mem_map, List.mem_range] using hmem
      omega
    have hge : t.highest_tp_reached ≤ new_highest_tp t price :=
      foldl_hit_ge t.side price t.tp_levels t.highest_tp_reached
    have hle : new_highest_tp t price ≤ n :=
      foldl_hit_le t.side price n t.tp_levels t.highest_tp_reached hhi hlevels
    by_cases hraise : new_highest_tp t price > t.highest_tp_reached
    · by_cases h2 : new_highest_tp t price ≥ 2
      · -- the trailing branch runs; the TP level `nh - 1` exists
        have hmem : (new_highest_tp t price - 1) ∈ t.tp_levels.map TPLevel.level := by
          rw [hwf]
          simp only [List.mem_map, List.mem_range]
          exact ⟨new_highest_tp t price - 2, by omega, by omega⟩
        obtain ⟨tp, hfind, hlev⟩ := find?_level_mem t.tp_levels _ hmem
        have hpt : get_tp_price t (new_highest_tp t price - 1) = some tp.price := by
          simp only [get_tp_price, hfind, Option.map_some']
        have hptm : get_tp_price { t with tp_levels := mark_hits t price, highest_tp_reached := new_highest_tp t price } (new_highest_tp t price - 1) = some tp.price := by
          rw [get_tp_price_mark]
          exact hpt
        have heq : check_tp_levels t price ret =
            ((update_sl { t with tp_levels := mark_hits t price, highest_tp_reached := new_highest_tp t price } tp.price ret).fst, some tp.price,
              (update_sl { t with tp_levels := mark_hits t price, highest_tp_reached := new_highest_tp t price } tp.price ret).snd) := by
          simp only [check_tp_levels, if_pos hraise, if_pos h2, hptm]
        rw [heq]
        dsimp only
        refine ⟨?_, ?_, ?_, ?_⟩
        · rw [update_sl_highest]
          exact hge
        · intro hle1
          rw [update_sl_highest] at hle1
          have hle1' : new_highest_tp t price ≤ 1 := hle1
          omega
        · intro _ _
          refine ⟨tp.price, ?_, rfl⟩
          rw [update_sl_highest]
          exact hpt
        · intro v hv
          rcases update_sl_snd { t with tp_levels := mark_hits t price, highest_tp_reached := new_highest_tp t price } tp.price ret with h | h
          · rw [h] at hv
            exact Option.noConfusion hv
          · rw [h] at hv
            rw [hv]
      · have heq : check_tp_levels t price ret =
            ({ t with tp_levels := mark_hits t price, highest_tp_reached := new_highest_tp t price }, none, none) := by
          simp only [check_tp_levels, if_pos hraise, if_neg h2]
        rw [heq]
        refine ⟨hge, fun _ => ⟨rfl, rfl⟩, fun hc _ => ?_, fun v hv => Option.noConfusion hv⟩
        have hc' : 2 ≤ new_highest_tp t price := hc
        omega
    · have heq : check_tp_levels t price ret =
          ({ t with tp_levels := mark_hits t price }, none, none) := by
        simp only [check_tp_levels, if_neg hraise]
      rw [heq]
      refine ⟨le_refl _, fun _ => ⟨rfl, rfl⟩, fun _ hlt => ?_, fun v hv => Option.noConfusion hv⟩
      have hlt' : t.highest_tp_reached < t.highest_tp_reached := hlt
      omega

def c3_trade : Trade :=
  { side := Side.LONG
    status := TradeStatus.OPEN
    tp_levels := [{ level := 1, price := 1, hit := false },
      { level := 2, price := 2, hit := false },
      { level := 3, price := 3, hit := false }]
    highest_tp_reached := 0
    current_sl_price := some 0
    initial_sl_price := some 0 }

/-- Witness for C3: a tick through TP2 on a concrete LONG trade attempts
exactly the TP1 price as the new SL. -/
theorem C3_trailing_ladder_witness :
    (c3_trade.tp_levels.map TPLevel.level = (List.range 3).map (fun k => k + 1)) ∧
    (∃ p, get_tp_price c3_trade ((check_price_trade c3_trade 2 0).fst.highest_tp_reached - 1) = some p ∧
      (check_price_trade c3_trade 2 0).snd.fst = some p) := by
  have hwf : c3_trade.tp_levels.map TPLevel.level = (List.range 3).map (fun k => k + 1) := rfl
  have hnh : new_highest_tp c3_trade 2 = 2 := by
    norm_num [new_highest_tp, newly_hit, c3_trade]
    simp
  have hhi : (check_price_trade c3_trade 2 0).fst.highest_tp_reached = 2 := by
    simp only [check_price_trade, check_tp_levels, hnh]
    norm_num [c3_trade, get_tp_price, mark_hits, newly_hit, update_sl]
    simp
  have happ := C3_trailing_ladder c3_trade 2 0 3 rfl hwf (Nat.zero_le 3)
  exact ⟨hwf, happ.2.2.1 (by rw [hhi]) (by rw [hhi]; norm_num [c3_trade])⟩

/-- Witness for C10: a failed RPC leaves the concrete trade untouched; a
successful one installs the pushed value. -/
theorem C10_sl_update_atomic_witness :
    (update_sl c2_trade 11 5).fst = c2_trade ∧
    ((0 : Int) = 0 ∧ (update_sl c2_trade 12 0).fst.current_sl_price = some 12) := by
  constructor
  · exact (C10_sl_update_atomic c2_trade 11 5 rfl).1 (by norm_num)
  · refine (C10_sl_update_atomic c2_trade 12 0 rfl).2 ?_
    show (update_sl c2_trade 12 0).fst.current_sl_price ≠ some 10
    simp [update_sl, c2_trade]
    norm_num

/-! ## Coin selector results (`core/coin_selector.py`, `main.py`) -/

def c9_coin : CoinInfo :=
  { symbol := "AAAUSDT", base_coin := "AAA", volume_24h := 100, min_qty := 1 / 1000,
    qty_step := 1 / 1000, tick_size := 1 / 100, last_ha := none, prev_ha := none,
    in_active_trade := true }

def c9_ticker : Ticker := { symbol := "BBBUSDT", turnover24h := 500 }

def c9_inst : Instrument :=
  { symbol := "BBBUSDT", min_order_qty := 1 / 1000, qty_step := 1 / 1000, tick_size := 1 / 100 }

/-- C9 fails on the code: a tracked symbol whose `in_active_trade` flag is
`true` falls out of the top-N universe (its ticker is gone); `refresh`
rebuilds `_coins` from the new top-N only, so the symbol is no longer
tracked and its in-trade flag is lost; the caller's guard
`is_in_trade` therefore reads `false` and the symbol lands in the
unsubscribe list, contradicting both the spec and the caller's own
comment ("only if not in active trade"). -/
theorem C9_refresh_drops_in_trade :
    c9_coin.in_active_trade = true ∧
    (coin_refresh 20 [] [c9_coin] [c9_ticker] [c9_inst]).snd.snd = ["AAAUSDT"] ∧
    is_in_trade (coin_refresh 20 [] [c9_coin] [c9_ticker] [c9_inst]).fst "AAAUSDT" = false ∧
    safe_to_remove (coin_refresh 20 [] [c9_coin] [c9_ticker] [c9_inst]).fst
      (coin_refresh 20 [] [c9_coin] [c9_ticker] [c9_inst]).snd.snd = ["AAAUSDT"] := by
  refine ⟨rfl, ?_, ?_, ?_⟩ <;> decide

/-! ## Signal engine results (`core/signal_engine.py`) -/

/-- C1: on a confirmed 5m close, the flip evaluation goes through
`calc_live`, which chains from the stored previous-confirmed HA and is
read-only — the handler leaves the stored HA series and previous-HA
pointer untouched. (`calc_live` itself is modelled from the spec, see its
definition.) -/
theorem C1_calc_live_readonly :
    ∀ (st : SEState) (c : Candle),
      (on_kline_5 st).fst.ha = st.ha ∧
      (on_kline_5 st).fst.ha.series = st.ha.series ∧
      (on_kline_5 st).fst.ha.prev = st.ha.prev ∧
      (calc_live st.ha c).fst = calc_single c st.ha.prev ∧
      ((calc_live st.ha c).snd =
        match st.ha.prev with
        | none => none
        | some p => detect_flip p (calc_single c st.ha.prev)) := by
  intro st c
  have hha : (on_kline_5 st).fst.ha = st.ha := by
    rcases hl : st.live_4h with _ | live
    · simp [on_kline_5, hl]
    · simp only [on_kline_5, hl]
      rcases hs : (calc_live st.ha live).snd with _ | sig
      · rfl
      · dsimp only
        split_ifs <;> rfl
  exact ⟨hha, by rw [hha], by rw [hha], rfl, rfl⟩

/-- Guard of a 4h event against the current window lower bound. -/
def evOK (lb : Nat) : SEEvent → Prop
  | SEEvent.k240 c => lb ≤ c.timestamp
  | SEEvent.k5 => True

/-- The state invariant carried along a well-ordered trace: the cached
live candle (if any) starts no later than the bound, and the acted-flip
marker (if any) is bounded and no later than the cached candle's start. -/
def SEInv (st : SEState) (lb : Nat) : Prop :=
  (∀ c, st.live_4h = some c → c.timestamp ≤ lb) ∧
  (∀ w, st.flip_acted = some w →
    w ≤ lb ∧ ∀ c, st.live_4h = some c → w ≤ c.timestamp)

/-- A window start `w` cannot be acted on again: either the marker still
holds `w`, or every candle that can still reach the cache starts strictly
later than `w`. -/
def BlockedW (st : SEState) (lb w : Nat) : Prop :=
  st.flip_acted = some w ∨
    ((∀ c, st.live_4h = some c → w < c.timestamp) ∧ w < lb)

theorem valid_trace_cons (lb : Nat) (e : SEEvent) (es : List SEEvent)
    (h : ValidTrace lb (e :: es)) : evOK lb e ∧ ValidTrace (next_lb lb e) es := by
  cases e with
  | k240 c => exact h
  | k5 => exact ⟨trivial, h⟩

theorem step_240_confirmed (st : SEState) (c : Candle) (hc : c.confirmed = true) :
    se_step st (SEEvent.k240 c) =
      ({ st with ha := (st.ha.update c).fst, flip_acted := none, live_4h := none }, none) := by
  simp [se_step, on_kline_240, hc]

theorem step_240_live (st : SEState) (c : Candle) (hc : ¬ c.confirmed = true) :
    se_step st (SEEvent.k240 c) = ({ st with live_4h := some c }, none) := by
  simp [se_step, on_kline_240, hc]

theorem step_5_no_cache (st : SEState) (hl : st.live_4h = none) :
    on_kline_5 st = (st, none) := by
  simp [on_kline_5, hl]

theorem step_5_no_signal (st : SEState) (live : Candle) (hl : st.live_4h = some live)
    (hs : (calc_live st.ha live).snd = none) :
    on_kline_5 st = (st, none) := by
  simp [on_kline_5, hl, hs]

theorem step_5_debounced (st : SEState) (live : Candle) (sig : Signal)
    (hl : st.live_4h = some live) (hs : (calc_live st.ha live).snd = some sig)
    (hif : st.flip_acted = some live.timestamp) :
    on_kline_5 st = (st, none) := by
  simp [on_kline_5, hl, hs, hif]

theorem step_5_acts (st : SEState) (live : Candle) (sig : Signal)
    (hl : st.live_4h = some live) (hs : (calc_live st.ha live).snd = some sig)
    (hif : ¬ st.flip_acted = some live.timestamp) :
    on_kline_5 st =
      ({ st with flip_acted := some live.timestamp }, some live.timestamp) := by
  simp [on_kline_5, hl, hs, hif]

theorem inv_step (st : SEState) (lb : Nat) (e : SEEvent)
    (hinv : SEInv st lb) (hok : evOK lb e) :
    SEInv (se_step st e).fst (next_lb lb e) := by
  obtain ⟨hcache, hmark⟩ := hinv
  cases e with
  | k240 c =>
    have hts : lb ≤ c.timestamp := hok
    by_cases hc : c.confirmed = true
    · rw [step_240_confirmed st c hc]
      exact ⟨fun c' h' => Option.noConfusion h', fun w h' => Option.noConfusion h'⟩
    · rw [step_240_live st c hc]
      have hlb : next_lb lb (SEEvent.k240 c) = c.timestamp := by
        simp [next_lb, hc]
      rw [hlb]
      constructor
      · intro c' h'
        have h'' : some c = some c' := h'
        cases h''
        exact le_refl _
      · intro w h'
        have hm : st.flip_acted = some w := h'
        obtain ⟨hw1, -⟩ := hmark w hm
        refine ⟨by omega, ?_⟩
        intro c' h''
        have h3 : some c = some c' := h''
        cases h3
        omega
  | k5 =>
    show SEInv (on_kline_5 st).fst lb
    rcases hl : st.live_4h with _ | live
    · rw [step_5_no_cache st hl]
      exact ⟨hcache, hmark⟩
    · rcases hs : (calc_live st.ha live).snd with _ | sig
      · rw [step_5_no_signal st live hl hs]
        exact ⟨hcache, hmark⟩
      · by_cases hif : st.flip_acted = some live.timestamp
        · rw [step_5_debounced st live sig hl hs hif]
          exact ⟨hcache, hmark⟩
        · rw [step_5_acts st live sig hl hs hif]
          constructor
          · intro c' h'
            exact hcache c' h'
          · intro w h'
            have hw : some live.timestamp = some w := h'
            have hw' := Option.some.inj hw
            subst hw'
            refine ⟨hcache live hl, ?_⟩
            intro c' h''
            have h3 : st.live_4h = some c' := h''
            rw [hl] at h3
            cases h3
            exact le_refl _

theorem blocked_step (st : SEState) (lb w : Nat) (e : SEEvent)
    (hinv : SEInv st lb) (hok : evOK lb e) (hb : BlockedW st lb w) :
    BlockedW (se_step st e).fst (next_lb lb e) w ∧ (se_step st e).snd ≠ some w := by
  obtain ⟨hcache, hmark⟩ := hinv
  cases e with
  | k240 c =>
    have hts : lb ≤ c.timestamp := hok
    have hwlt : w ≤ lb := by
      rcases hb with hm | ⟨-, hlt⟩
      · exact (hmark w hm).1
      · omega
    by_cases hc : c.confirmed = true
    · rw [step_240_confirmed st c hc]
      have hlb : next_lb lb (SEEvent.k240 c) = c.timestamp + 1 := by
        simp [next_lb, hc]
      rw [hlb]
      refine ⟨Or.inr ⟨fun c' h' => Option.noConfusion h', by omega⟩, ?_⟩
      intro h'
      exact Option.noConfusion h'
    · rw [step_240_live st c hc]
      have hlb : next_lb lb (SEEvent.k240 c) = c.timestamp := by
        simp [next_lb, hc]
      rw [hlb]
      refine ⟨?_, fun h' => Option.noConfusion h'⟩
      rcases hb with hm | ⟨-, hlt⟩
      · exact Or.inl hm
      · refine Or.inr ⟨?_, by omega⟩
        intro c' h'
        have h'' : some c = some c' := h'
        cases h''
        omega
  | k5 =>
    show BlockedW (on_kline_5 st).fst lb w ∧ (on_kline_5 st).snd ≠ some w
    rcases hl : st.live_4h with _ | live
    · rw [step_5_no_cache st hl]
      exact ⟨hb, fun h' => Option.noConfusion h'⟩
    · rcases hs : (calc_live st.ha live).snd with _ | sig
      · rw [step_5_no_signal st live hl hs]
        exact ⟨hb, fun h' => Option.noConfusion h'⟩
      · by_cases hif : st.flip_acted = some live.timestamp
        · rw [step_5_debounced st live sig hl hs hif]
          exact ⟨hb, fun h' => Option.noConfusion h'⟩
        · rw [step_5_acts st live sig hl hs hif]
          have hwts : w < live.timestamp := by
            rcases hb with hm | ⟨hlt, -⟩
            · -- marker holds `w` but the act required the marker ≠ cached start,
              -- and the marker start is ≤ the cached start by the invariant
              have hle := (hmark w hm).2 live hl
              have hne : w ≠ live.timestamp := by
                intro heq
                rw [hm, heq] at hif
                exact hif rfl
              omega
            · exact hlt live hl
          constructor
          · refine Or.inr ⟨?_, ?_⟩
            · intro c' h'
              have h3 : st.live_4h = some c' := h'
              rw [hl] at h3
              cases h3
              exact hwts
            · exact lt_of_lt_of_le hwts (hcache live hl)
          · intro h'
            have h'' : some live.timestamp = some w := h'
            have := Option.some.inj h''
            omega

theorem act_blocks (st : SEState) (lb : Nat) (e : SEEvent) (w : Nat)
    (hact : (se_step st e).snd = some w) :
    BlockedW (se_step st e).fst (next_lb lb e) w := by
  cases e with
  | k240 c =>
    by_cases hc : c.confirmed = true
    · rw [step_240_confirmed st c hc] at hact
      exact Option.noConfusion hact
    · rw [step_240_live st c hc] at hact
      exact Option.noConfusion hact
  | k5 =>
    rcases hl : st.live_4h with _ | live
    · rw [show (se_step st SEEvent.k5).snd = (on_kline_5 st).snd from rfl,
        step_5_no_cache st hl] at hact
      exact Option.noConfusion hact
    · rcases hs : (calc_live st.ha live).snd with _ | sig
      · rw [show (se_step st SEEvent.k5).snd = (on_kline_5 st).snd from rfl,
          step_5_no_signal st live hl hs] at hact
        exact Option.noConfusion hact
      · by_cases hif : st.flip_acted = some live.timestamp
        · rw [show (se_step st SEEvent.k5).snd = (on_kline_5 st).snd from rfl,
            step_5_debounced st live sig hl hs hif] at hact
          exact Option.noConfusion hact
        · have hstep := step_5_acts st live sig hl hs hif
          have hact' : some live.timestamp = some w := by
            rw [show (se_step st SEEvent.k5).snd = (on_kline_5 st).snd from rfl, hstep] at hact
            exact hact
          have hw := Option.some.inj hact'
          show BlockedW (on_kline_5 st).fst lb w
          rw [hstep]
          exact Or.inl (by rw [hw])

theorem run_count_blocked (es : List SEEvent) :
    ∀ (st : SEState) (lb w : Nat), SEInv st lb → BlockedW st lb w → ValidTrace lb es →
      ((se_run st es).snd.count w) = 0 := by
  induction es with
  | nil =>
    intro st lb w _ _ _
    rfl
  | cons e es ih =>
    intro st lb w hinv hb hv
    obtain ⟨hok, hv'⟩ := valid_trace_cons lb e es hv
    obtain ⟨hb', hne⟩ := blocked_step st lb w e hinv hok hb
    have hinv' := inv_step st lb e hinv hok
    have hrest := ih (se_step st e).fst (next_lb lb e) w hinv' hb' hv'
    rcases hout : (se_step st e).snd with _ | w'
    · simp only [se_run, hout]
      exact hrest
    · have hw' : w' ≠ w := by
        intro heq
        rw [heq] at hout
        exact hne hout
      simp only [se_run, hout]
      rw [List.count_cons]
      simp [hw', hrest]

theorem run_count_le_one (es : List SEEvent) :
    ∀ (st : SEState) (lb w : Nat), SEInv st lb → ValidTrace lb es →
      ((se_run st es).snd.count w) ≤ 1 := by
  induction es with
  | nil =>
    intro st lb w _ _
    simp [se_run]
  | cons e es ih =>
    intro st lb w hinv hv
    obtain ⟨hok, hv'⟩ := valid_trace_cons lb e es hv
    have hinv' := inv_step st lb e hinv hok
    rcases hout : (se_step st e).snd with _ | w'
    · simp only [se_run, hout]
      exact ih (se_step st e).fst (next_lb lb e) w hinv' hv'
    · by_cases hw : w' = w
      · subst hw
        have hb : BlockedW (se_step st e).fst (next_lb lb e) w' := by
          refine act_blocks st lb e w' ?_
          exact hout
        have h0 := run_count_blocked es (se_step st e).fst (next_lb lb e) w' hinv' hb hv'
        simp only [se_run, hout]
        rw [List.count_cons]
        simp [h0]
      · have hcnt := ih (se_step st e).fst (next_lb lb e) w hinv' hv'
        simp only [se_run, hout]
        rw [List.count_cons]
        simpa [hw] using hcnt

/-- C4: along any well-ordered per-symbol stream, at most one flip is
acted on per 4h window start; a flip signal arriving while the marker
already holds the cached candle's start is ignored without touching the
state; and the marker is cleared only by the confirmed 4h candle. -/
theorem C4_flip_once :
    (∀ (ha0 : HAState) (lb : Nat) (es : List SEEvent) (w : Nat),
        ValidTrace lb es →
        ((se_run { ha := ha0, flip_acted := none, live_4h := none } es).snd.count w) ≤ 1) ∧
    (∀ (st : SEState) (live : Candle), st.live_4h = some live →
        st.flip_acted = some live.timestamp → on_kline_5 st = (st, none)) ∧
    (∀ (st : SEState) (e : SEEvent),
        (se_step st e).fst.flip_acted = none →
        st.flip_acted = none ∨ ∃ c, e = SEEvent.k240 c ∧ c.confirmed = true) := by
  refine ⟨?_, ?_, ?_⟩
  · intro ha0 lb es w hv
    refine run_count_le_one es _ lb w ?_ hv
    exact ⟨fun c h => Option.noConfusion h, fun w' h => Option.noConfusion h⟩
  · intro st live hl hm
    rcases hs : (calc_live st.ha live).snd with _ | sig
    · exact step_5_no_signal st live hl hs
    · exact step_5_debounced st live sig hl hs hm
  · intro st e h
    cases e with
    | k240 c =>
      by_cases hc : c.confirmed = true
      · exact Or.inr ⟨c, rfl, hc⟩
      · rw [step_240_live st c hc] at h
        exact Or.inl h
    | k5 =>
      rcases hl : st.live_4h with _ | live
      · rw [show (se_step st SEEvent.k5).fst = (on_kline_5 st).fst from rfl,
          step_5_no_cache st hl] at h
        exact Or.inl h
      · rcases hs : (calc_live st.ha live).snd with _ | sig
        · rw [show (se_step st SEEvent.k5).fst = (on_kline_5 st).fst from rfl,
            step_5_no_signal st live hl hs] at h
          exact Or.inl h
        · by_cases hif : st.flip_acted = some live.timestamp
          · rw [show (se_step st SEEvent.k5).fst = (on_kline_5 st).fst from rfl,
              step_5_debounced st live sig hl hs hif] at h
            exact Or.inl h
          · rw [show (se_step st SEEvent.k5).fst = (on_kline_5 st).fst from rfl,
              step_5_acts st live sig hl hs hif] at h
            exact absurd (show some live.timestamp = (none : Option Nat) from h)
              (by simp)

def c4_prev_ha : HACandle :=
  { timestamp := 0, ha_open := 2, ha_close := 1, ha_high := 2, ha_low := 1 }

def c4_ha0 : HAState := { series := [c4_prev_ha], prev := some c4_prev_ha }

def c4_live : Candle :=
  { timestamp := 100, open_ := 2, high := 3, low := 2, close := 3, volume := 1,
    confirmed := false }

/-- Witness for C4: a concrete well-ordered trace (live 4h candle cached,
then two confirmed 5m closes) acts on at most one flip for its window. -/
theorem C4_flip_once_witness :
    ValidTrace 0 [SEEvent.k240 c4_live, SEEvent.k5, SEEvent.k5] ∧
    ((se_run { ha := c4_ha0, flip_acted := none, live_4h := none }
        [SEEvent.k240 c4_live, SEEvent.k5, SEEvent.k5]).snd.count 100) ≤ 1 := by
  have hv : ValidTrace 0 [SEEvent.k240 c4_live, SEEvent.k5, SEEvent.k5] :=
    ⟨Nat.zero_le 100, trivial⟩
  exact ⟨hv, C4_flip_once.1 c4_ha0 0 _ 100 hv⟩
